import Mathlib

/-!
# Verification of the bondlib piecewise-flat forward-curve core

Shallow embedding of the curve code in `tmx_pwflat.h`, `tmx_curve.h` and
`tmx_curve_pwflat.h`.

Modelling conventions:
* Times and rates (`double` in the source) are modelled as rationals `ℚ`;
  the IEEE quiet-NaN sentinel is modelled by `Option ℚ` with `none` playing
  the role of NaN.  Arithmetic on such values propagates `none`, mirroring
  NaN propagation.
* Raw `(size_t n, const T* t, const F* f)` array arguments are modelled as
  Lean lists (the length `n` is the list length; both arrays are read up to
  the same `n`, exactly as the pointer-based kernel does).
* `std::lower_bound`/`std::upper_bound` on a partitioned range return the
  first position whose element fails the ordering test; they are embedded by
  the structurally recursive first-index scans `lowerBound` / `upperBound0`,
  which realise exactly that contract.
* In-place mutation (`translate`) is embedded by explicit state passing:
  a function returns the new contents of the mutated array.
-/

/-- `none` models the IEEE quiet NaN sentinel `NaN<F>` of the source;
`some q` models an ordinary (non-NaN) double. -/
abbrev FVal : Type := Option ℚ

/-- NaN-propagating addition: `a + b` is NaN whenever either operand is. -/
def optAdd : FVal → FVal → FVal
  | some a, some b => some (a + b)
  | _, _ => none

/-- NaN-propagating subtraction: `a - b` is NaN whenever either operand is. -/
def optSub : FVal → FVal → FVal
  | some a, some b => some (a - b)
  | _, _ => none

namespace pwflat

/-- `tmx::pwflat::monotonic`: true iff the values are strictly increasing.
The source checks `e == std::adjacent_find(b, e, std::greater_equal{})`,
i.e. no adjacent pair satisfies `t[i] >= t[i+1]`. -/
def monotonic : List ℚ → Bool
  | [] => true
  | [_] => true
  | a :: b :: r => decide (a < b) && monotonic (b :: r)

/-- `std::lower_bound(t, t + n, u)` as an index: the first index `i` with
`¬ (t[i] < u)`, i.e. `u ≤ t[i]`; `n` (the list length) when there is none. -/
def lowerBound (u : ℚ) : List ℚ → ℕ
  | [] => 0
  | a :: r => if u ≤ a then 0 else lowerBound u r + 1

/-- `tmx::pwflat::value(u, n, t, f, _f)` (the raw-pointer kernel overload):
NaN if `u < 0`; `_f` if `n == 0`; otherwise `lower_bound` locates the first
pillar with `t[i] ≥ u` and the kernel returns `f[i]`, or `_f` when the
search falls off the end. -/
def value (u : ℚ) (t f : List ℚ) (ef : FVal) : FVal :=
  if u < 0 then none
  else if t.length = 0 then ef
  else
    let i := lowerBound u t
    if i = t.length then ef else some (f.getD i 0)

/-- The `std::span` overload of `tmx::pwflat::value`: returns NaN when the
two spans have different sizes, otherwise delegates to the kernel. -/
def valueSpan (u : ℚ) (t f : List ℚ) (ef : FVal) : FVal :=
  if t.length ≠ f.length then none
  else value u t f ef

/-- The accumulation loop of `tmx::pwflat::integral`: starting from partial
sum `I` and previous pillar time `tp`, consume `(t[i], f[i])` pairs while
`t[i] ≤ u`, adding `f[i] * (t[i] - t_)`; on exit add the partial final
interval `(i == n ? _f : f[i]) * (u - t_)` when `u > t_`. -/
def integralLoop (u : ℚ) (ef : FVal) (I tp : ℚ) : List (ℚ × ℚ) → FVal
  | [] => if tp < u then ef.map (fun x => I + x * (u - tp)) else some I
  | (ti, fi) :: r =>
    if ti ≤ u then integralLoop u ef (I + fi * (ti - tp)) ti r
    else if tp < u then some (I + fi * (u - tp)) else some I

/-- `tmx::pwflat::integral(u, n, t, f, _f)`: NaN if `u < 0`; `0` if
`u == 0`; `u * _f` if `n == 0`; otherwise the accumulation loop from
`I = 0`, `t_ = 0`. -/
def integral (u : ℚ) (t f : List ℚ) (ef : FVal) : FVal :=
  if u < 0 then none
  else if u = 0 then some 0
  else if t.length = 0 then ef.map (fun x => u * x)
  else integralLoop u ef 0 0 (t.zip f)

/-- Modelled from the spec: `tmx::curve::pwflat::_value` calls
`tmx::pwflat::forward`, whose definition is not among the provided source
files (only this caller is).  Spec §4.4 states that the piecewise-flat
curve's `value` delegates to the kernel value function over its owned
arrays, so `forward` is the kernel `value`. -/
def forward (u : ℚ) (t f : List ℚ) (ef : FVal) : FVal :=
  value u t f ef

/-- `std::upper_bound(t, t + n, 0)` as an index: the first index `i` with
`0 < t[i]`; `n` when there is none. -/
def upperBound0 : List ℚ → ℕ
  | [] => 0
  | a :: r => if 0 < a then 0 else upperBound0 r + 1

/-- `tmx::pwflat::translate(u, n, t)` in state-passing form: every time is
shifted in place by `-u`; the result is the pair (new array contents,
returned sub-view `span(t + m, n - m)` of the times still `> 0`). -/
def translate (u : ℚ) (t : List ℚ) : List ℚ × List ℚ :=
  let t' := t.map (fun x => x - u)
  let m := upperBound0 t'
  (t', t'.drop m)

end pwflat

/-- The closed set of curve variants of `tmx::curve`: `constant` (one
scalar), `pwflat` (owned pillar arrays plus extrapolation scalar) and
`plus` (the sum of two curves). -/
inductive Curve : Type
  | const : FVal → Curve
  | pw : List ℚ → List ℚ → FVal → Curve
  | plus : Curve → Curve → Curve

/-- The virtual `_value` of each variant.
`constant::_value` returns the scalar `f` ignoring `u`;
`curve::pwflat::_value` delegates to `tmx::pwflat::forward` over the owned
arrays; `plus::_value` adds the operands' values. -/
def Curve.value : Curve → ℚ → FVal
  | .const f, _ => f
  | .pw t f ef, u => pwflat.forward u t f ef
  | .plus f g, u => optAdd (f.value u) (g.value u)

/-- The virtual `_integral` of each variant.
`constant::_integral(u, t) = f * (u - t)`;
`curve::pwflat::_integral(u, t0)` is kernel `integral(u) - integral(t0)`
over the full owned arrays; `plus::_integral(u, t)` is
`f.integral(u) + g.integral(u)` — the parameter `t` is unused
(`[[maybe_unused]]` in the source). -/
def Curve.integral : Curve → ℚ → ℚ → FVal
  | .const f, u, t => f.map (fun x => x * (u - t))
  | .pw tl fl ef, u, t0 =>
      optSub (pwflat.integral u tl fl ef) (pwflat.integral t0 tl fl ef)
  | .plus f g, u, _ => optAdd (f.integral u 0) (g.integral u 0)

/-- `tmx::curve::base::discount(u, t) = std::exp(-integral(u, t))`,
NaN-propagating. -/
noncomputable def Curve.discount (c : Curve) (u t : ℚ) : Option ℝ :=
  (c.integral u t).map (fun I => Real.exp (-(I : ℝ)))

/-- The constructor `tmx::curve::pwflat::pwflat(size_t n, const T* t_,
const F* f_, F _f)`: it copies the first `n` entries of each array into the
owned vectors and stores the extrapolation scalar.  It performs no
validation of any kind. -/
def mkPwflat (n : ℕ) (t f : List ℚ) (ef : FVal) : Curve :=
  .pw (t.take n) (f.take n) ef

/-- The owned pillar-time vector of a piecewise-flat curve (empty for the
other variants, which own no pillar arrays). -/
def Curve.times : Curve → List ℚ
  | .pw t _ _ => t
  | _ => []

/-- `tmx::curve::pwflat::_back` returns `{ t.back(), f.back() }`.
`std::vector::back` on an empty vector is undefined behaviour; the
embedding makes the function partial, returning `none` exactly when either
owned vector is empty (no defined result exists — the source produces no
error value, its return type `std::pair` has none). -/
def pwflatBack (t f : List ℚ) : Option (ℚ × ℚ) :=
  match t.getLast?, f.getLast? with
  | some a, some b => some (a, b)
  | _, _ => none

/-- `tmx::curve::base::forward(u, t)` executes `return forward(u + t);`:
it calls itself (with the default argument `t = 0`), never `value`.  The
embedding makes the call stack explicit with a fuel parameter counting the
nested calls; `none` means the computation has not produced a result
within the given depth. -/
def forwardFuel (c : Curve) : ℕ → ℚ → ℚ → Option FVal
  | 0, _, _ => none
  | n + 1, u, t => forwardFuel c n (u + t) 0

/-- The array contents after `translate(u, t)` followed by
`translate(-u, result)` applied to the returned sub-view: the first `m`
slots (the expired times, dropped from the sub-view) keep their shifted
contents, only the sub-view is shifted back. -/
def roundTrip (u : ℚ) (t : List ℚ) : List ℚ :=
  let t' := t.map (fun x => x - u)
  let m := pwflat.upperBound0 t'
  t'.take m ++ (t'.drop m).map (fun x => x + u)

/-- The constructor of the scoped wrapper `tmx::translate`: it runs
`pwflat::translate(dt, span(t))` over the full span, so the stored array
contents become `t.map (· - dt)`; `n` is the size of the sub-view. -/
def scopeEnter (u : ℚ) (t : List ℚ) : List ℚ × ℕ :=
  (t.map (fun x => x - u), ((pwflat.translate u t).2).length)

/-- The destructor of the scoped wrapper `tmx::translate`: it runs
`pwflat::translate(-dt, span(t))` over the full stored span, shifting every
slot back by `+dt` (the sub-view the call returns is discarded). -/
def scopeExit (u : ℚ) (st : List ℚ) : List ℚ :=
  st.map (fun x => x + u)

/-- Formalisation of the spec's description of `integral` (§4.2, C2): the
sum of `f[i] * (t[i] - t[i-1])` over every interval fully below `u`
(`t[i] ≤ u`), chained from the predecessor pillar (`0` before the first),
plus the partial final interval's rate — the next pillar's rate, or `_f`
when `u` exceeds all pillars — times the remaining time. -/
def gapsSum (tp : ℚ) : List (ℚ × ℚ) → ℚ
  | [] => 0
  | (ti, fi) :: r => fi * (ti - tp) + gapsSum ti r

/-- The pillar pairs whose interval lies fully below `u` (time `≤ u`). -/
def leFilter (u : ℚ) (l : List (ℚ × ℚ)) : List (ℚ × ℚ) :=
  l.filter (fun p => decide (p.1 ≤ u))

/-- The partial final interval's rate: the rate of the next pillar (the
first one with time `> u`), or `_f` when `u` exceeds all pillars. -/
def gtRate (u : ℚ) (ef : FVal) (l : List (ℚ × ℚ)) : FVal :=
  match l.filter (fun p => decide (u < p.1)) with
  | [] => ef
  | (_, fi) :: _ => some fi

/-- The spec's closed form for `integral` on positive `u` (see `gapsSum`):
intervals fully below `u`, then the partial final interval. -/
def sumIntervals (u : ℚ) (t f : List ℚ) (ef : FVal) : FVal :=
  let lo := leFilter u (t.zip f)
  let below := gapsSum 0 lo
  let tlast := (lo.map Prod.fst).getLastD 0
  if tlast < u then (gtRate u ef (t.zip f)).map (fun r => below + r * (u - tlast))
  else some below

/-! ## Helper lemmas -/

/-- `monotonic` decides the strict chain property. -/
theorem monotonic_iff_chain : ∀ l : List ℚ, pwflat.monotonic l = true ↔ List.Chain' (· < ·) l
  | [] => by simp [pwflat.monotonic]
  | [a] => by simp [pwflat.monotonic]
  | a :: b :: r => by
    rw [pwflat.monotonic, Bool.and_eq_true, decide_eq_true_iff, List.chain'_cons,
      monotonic_iff_chain (b :: r)]

/-- `lower_bound` lands on the end iff every element is below the key. -/
theorem lowerBound_of_all_lt (u : ℚ) :
    ∀ t : List ℚ, (∀ x ∈ t, x < u) → pwflat.lowerBound u t = t.length := by
  intro t
  induction t with
  | nil => intro _; rfl
  | cons a r ih =>
    intro h
    have ha : ¬ u ≤ a := not_le.mpr (h a (by simp))
    simp [pwflat.lowerBound, ha, ih (fun x hx => h x (by simp [hx]))]

/-- `lower_bound` returns the first index whose element is `≥` the key. -/
theorem lowerBound_first (u : ℚ) :
    ∀ (t : List ℚ) (i : ℕ), i < t.length → u ≤ t.getD i 0 →
      (∀ j, j < i → t.getD j 0 < u) → pwflat.lowerBound u t = i := by
  intro t
  induction t with
  | nil => intro i hi; simp at hi
  | cons a r ih =>
    intro i hi hu hj
    cases i with
    | zero =>
      simp only [List.getD_cons_zero] at hu
      simp [pwflat.lowerBound, hu]
    | succ k =>
      have ha : a < u := by simpa using hj 0 (Nat.succ_pos k)
      have hr : pwflat.lowerBound u r = k :=
        ih k (by simpa using hi) (by simpa using hu)
          (fun j hjk => by simpa using hj (j + 1) (Nat.succ_lt_succ hjk))
      simp [pwflat.lowerBound, not_le.mpr ha, hr]

/-- The `integral` accumulation loop, on pillar pairs with strictly
increasing times, computes the spec's closed form: the gap-weighted sum
over the pairs with time `≤ u` plus, when `u` lies strictly beyond the
last consumed time, the next pair's rate (or `_f` past the end) times the
remaining time. -/
theorem integralLoop_eq (u : ℚ) (ef : FVal) :
    ∀ (l : List (ℚ × ℚ)) (I tp : ℚ), (l.map Prod.fst).Pairwise (· < ·) →
      pwflat.integralLoop u ef I tp l =
        (if ((leFilter u l).map Prod.fst).getLastD tp < u then
          (gtRate u ef l).map
            (fun x => I + gapsSum tp (leFilter u l) +
              x * (u - ((leFilter u l).map Prod.fst).getLastD tp))
        else some (I + gapsSum tp (leFilter u l))) := by
  intro l
  induction l with
  | nil =>
    intro I tp _
    simp [pwflat.integralLoop, gapsSum, leFilter, gtRate]
  | cons p r ih =>
    obtain ⟨ti, fi⟩ := p
    intro I tp hpw
    rw [List.map_cons, List.pairwise_cons] at hpw
    obtain ⟨hlt, hpw'⟩ := hpw
    by_cases hle : ti ≤ u
    · have h1 : leFilter u ((ti, fi) :: r) = (ti, fi) :: leFilter u r := by
        simp [leFilter, List.filter_cons, hle]
      have h2 : gtRate u ef ((ti, fi) :: r) = gtRate u ef r := by
        simp [gtRate, List.filter_cons, not_lt.mpr hle]
      rw [show pwflat.integralLoop u ef I tp ((ti, fi) :: r) =
            pwflat.integralLoop u ef (I + fi * (ti - tp)) ti r from by
          simp [pwflat.integralLoop, hle],
        ih (I + fi * (ti - tp)) ti hpw', h1, h2,
        show gapsSum tp ((ti, fi) :: leFilter u r) =
          fi * (ti - tp) + gapsSum ti (leFilter u r) from rfl,
        List.map_cons, List.getLastD_cons]
      simp [add_assoc]
    · have hti : u < ti := not_le.mp hle
      have h1 : leFilter u ((ti, fi) :: r) = [] := by
        rw [leFilter, List.filter_cons, if_neg (by simpa using hle)]
        exact List.filter_eq_nil.mpr
          (fun p hp => by
            simpa using not_le.mpr (lt_trans hti (hlt p.1 (List.mem_map_of_mem Prod.fst hp))))
      have h2 : gtRate u ef ((ti, fi) :: r) = some fi := by
        simp [gtRate, List.filter_cons, hti]
      rw [show pwflat.integralLoop u ef I tp ((ti, fi) :: r) =
            (if tp < u then some (I + fi * (u - tp)) else some I) from by
          simp [pwflat.integralLoop, hle],
        h1, h2]
      simp [gapsSum]

/-! ## Claims -/

/-- C1: for strictly increasing pillars `t` and equal-length rates `f`, the
kernel `value(u, n, t, f, _f)` returns NaN if `u < 0`, `_f` if `n == 0`,
the rate `f[i]` of the first pillar index `i` with `t[i] ≥ u` otherwise,
and `_f` when `u` exceeds all pillar times; and the PiecewiseFlat curve's
`value(u)` is exactly this kernel result over its owned arrays. -/
theorem value_spec (u : ℚ) (t f : List ℚ) (ef : FVal)
    (hmono : pwflat.monotonic t = true) (hlen : t.length = f.length) :
    (u < 0 → pwflat.value u t f ef = none) ∧
    (t = [] → 0 ≤ u → pwflat.value u t f ef = ef) ∧
    (∀ i, i < t.length → 0 ≤ u → u ≤ t.getD i 0 → (∀ j, j < i → t.getD j 0 < u) →
      pwflat.value u t f ef = some (f.getD i 0)) ∧
    (0 ≤ u → (∀ x ∈ t, x < u) → pwflat.value u t f ef = ef) ∧
    (∀ v : ℚ, Curve.value (Curve.pw t f ef) v = pwflat.value v t f ef) := by
  refine ⟨?_, ?_, ?_, ?_, fun v => rfl⟩
  · intro hu; simp [pwflat.value, hu]
  · intro ht hu; simp [pwflat.value, ht, not_lt.mpr hu]
  · intro i hi hu hti hj
    have hlb := lowerBound_first u t i hi hti hj
    have hne : t.length ≠ 0 := Nat.pos_iff_ne_zero.mp (Nat.lt_of_le_of_lt (Nat.zero_le i) hi)
    simp [pwflat.value, not_lt.mpr hu, hne, hlb, Nat.ne_of_lt hi]
  · intro hu hall
    have hlb := lowerBound_of_all_lt u t hall
    simp [pwflat.value, not_lt.mpr hu, hlb]

/-- Witness for C1 at `t = [1,2,3]`, `f = [2,3,4]`, `u = 2`: the first
pillar with time `≥ 2` is index 1, so the value is 3. -/
theorem value_spec_witness :
    pwflat.value 2 [1, 2, 3] [2, 3, 4] (some 5) = some 3 := by
  have h := (value_spec 2 [1, 2, 3] [2, 3, 4] (some 5) (by rfl) (by rfl)).2.2.1 1
    (by norm_num) (by norm_num) (by norm_num)
    (by intro j hj; interval_cases j; norm_num)
  simpa using h

/-- C2: for strictly increasing pillars and `u ≥ 0`, the kernel
`integral(u, n, t, f, _f)` returns NaN if `u < 0`, `0` if `u == 0`,
`u * _f` if `n == 0`, and otherwise the exact piecewise-constant
antiderivative (`sumIntervals`: the sum of `f[i] * (t[i] - t[i-1])` over
intervals fully below `u` plus the partial final interval's rate times the
remaining time); in particular it produces the spec's scenario values for
`t = [1,2,3]`, `f = [2,3,4]`. -/
theorem integral_spec (u : ℚ) (t f : List ℚ) (ef : FVal)
    (hmono : pwflat.monotonic t = true) (hlen : t.length = f.length) :
    (u < 0 → pwflat.integral u t f ef = none) ∧
    (u = 0 → pwflat.integral u t f ef = some 0) ∧
    (0 < u → t = [] → pwflat.integral u t f ef = ef.map (fun x => u * x)) ∧
    (0 < u → pwflat.integral u t f ef = sumIntervals u t f ef) ∧
    (pwflat.integral 0 [1, 2, 3] [2, 3, 4] none = some 0 ∧
      pwflat.integral (1 / 2) [1, 2, 3] [2, 3, 4] none = some 1 ∧
      pwflat.integral 1 [1, 2, 3] [2, 3, 4] none = some 2 ∧
      pwflat.integral (3 / 2) [1, 2, 3] [2, 3, 4] none = some (7 / 2) ∧
      pwflat.integral 2 [1, 2, 3] [2, 3, 4] none = some 5 ∧
      pwflat.integral 3 [1, 2, 3] [2, 3, 4] none = some 9 ∧
      pwflat.integral (7 / 2) [1, 2, 3] [2, 3, 4] (some 5) = some (23 / 2)) := by
  refine ⟨?_, ?_, ?_, ?_, ?_, ?_, ?_, ?_, ?_, ?_, ?_⟩
  · intro hu; simp [pwflat.integral, hu]
  · intro hu; simp [pwflat.integral, hu]
  · intro hu ht
    simp [pwflat.integral, ht, not_lt.mpr hu.le, ne_of_gt hu]
  · intro hu
    by_cases ht : t = []
    · subst ht
      cases ef with
      | none =>
        simp [pwflat.integral, sumIntervals, leFilter, gtRate, gapsSum,
          not_lt.mpr hu.le, ne_of_gt hu, hu]
      | some q =>
        simp [pwflat.integral, sumIntervals, leFilter, gtRate, gapsSum,
          not_lt.mpr hu.le, ne_of_gt hu, hu, mul_comm]
    · have hzip : (t.zip f).map Prod.fst = t := List.map_fst_zip t f (le_of_eq hlen)
      have hpw : ((t.zip f).map Prod.fst).Pairwise (· < ·) := by
        rw [hzip]
        exact List.chain'_iff_pairwise.mp ((monotonic_iff_chain t).mp hmono)
      have hlen0 : t.length ≠ 0 := fun h => ht (List.length_eq_zero.mp h)
      rw [show pwflat.integral u t f ef = pwflat.integralLoop u ef 0 0 (t.zip f) from by
          simp [pwflat.integral, not_lt.mpr hu.le, ne_of_gt hu, hlen0],
        integralLoop_eq u ef (t.zip f) 0 0 hpw]
      simp [sumIntervals]
  · norm_num [pwflat.integral]
  · norm_num [pwflat.integral, pwflat.integralLoop, List.zip]
  · norm_num [pwflat.integral, pwflat.integralLoop, List.zip]
  · norm_num [pwflat.integral, pwflat.integralLoop, List.zip]
  · norm_num [pwflat.integral, pwflat.integralLoop, List.zip]
  · norm_num [pwflat.integral, pwflat.integralLoop, List.zip]
  · norm_num [pwflat.integral, pwflat.integralLoop, List.zip]

/-- Witness for C2 at `u = 2` over the scenario pillars: the loop result
equals the spec's closed-form decomposition. -/
theorem integral_spec_witness :
    pwflat.integral 2 [1, 2, 3] [2, 3, 4] none = sumIntervals 2 [1, 2, 3] [2, 3, 4] none :=
  (integral_spec 2 [1, 2, 3] [2, 3, 4] none (by rfl) (by rfl)).2.2.2.1 (by norm_num)

/-- C3: the Sum curve's `integral(u, t)` equals
`f.integral(u, 0) + g.integral(u, 0)`, ignoring the supplied lower bound
`t` entirely. -/
theorem plus_integral_ignores_lower_bound (f g : Curve) (u t : ℚ) :
    Curve.integral (Curve.plus f g) u t = optAdd (Curve.integral f u 0) (Curve.integral g u 0) ∧
    ∀ s : ℚ, Curve.integral (Curve.plus f g) u t = Curve.integral (Curve.plus f g) u s :=
  ⟨rfl, fun _ => rfl⟩

/-- C4: `tmx::curve::base::forward(u, t)` executes `return forward(u + t);`
— it calls itself instead of `value(u + t)`, so it never produces a result
at any call depth.  The claim (and spec §4.1) says it returns `value(u+t)`
and terminates; the code recurses forever. -/
theorem base_forward_never_returns (c : Curve) (fuel : ℕ) (u t : ℚ) :
    forwardFuel c fuel u t = none := by
  induction fuel generalizing u t with
  | zero => rfl
  | succ n ih => exact ih (u + t) 0

/-- C5 counterexample: constructing a PiecewiseFlat curve from the
non-monotonic pillar times `[1, 1]` succeeds — the constructor stores the
arrays unchanged and raises no "invalid pillar sequence" error — even
though `monotonic [1, 1]` is `false`. -/
theorem pwflat_ctor_accepts_nonmonotonic :
    mkPwflat 2 [1, 1] [0, 0] none = Curve.pw [1, 1] [0, 0] none ∧
    pwflat.monotonic [1, 1] = false :=
  ⟨rfl, by rfl⟩

/-- C5 amended: the constructor
`pwflat(size_t n, const T* t_, const F* f_, F _f)` copies the first `n`
entries of each array unconditionally; it never invokes any validity
check, so a constructed curve may hold non-monotonic times.  The kernel
predicate `monotonic` does correctly decide strict increase, but nothing
in construction calls it.  (A time/rate length mismatch is not even
representable at this constructor, which reads both arrays up to the same
`n`.) -/
theorem pwflat_ctor_unchecked (n : ℕ) (t f : List ℚ) (ef : FVal) :
    mkPwflat n t f ef = Curve.pw (t.take n) (f.take n) ef ∧
    (∀ l : List ℚ, pwflat.monotonic l = true ↔ List.Chain' (· < ·) l) :=
  ⟨rfl, monotonic_iff_chain⟩

/-- C10: the `std::span` overload of the kernel `value` returns NaN
whenever the two spans have different sizes, before any array access. -/
theorem value_span_length_guard (u : ℚ) (t f : List ℚ) (ef : FVal)
    (h : t.length ≠ f.length) : pwflat.valueSpan u t f ef = none := by
  simp [pwflat.valueSpan, h]

/-- Witness for C10 at `t = [1,2]`, `f = [3]`. -/
theorem value_span_length_guard_witness :
    pwflat.valueSpan 1 [1, 2] [3] none = none :=
  value_span_length_guard 1 [1, 2] [3] none (by norm_num)

/-- C6 counterexample: on a curve with zero pillars, `_back()` executes
`{ t.back(), f.back() }` on empty vectors — undefined behaviour with no
defined result (`none` in the embedding) — not an explicit "empty curve"
error value: the return type `std::pair<T, F>` has no error variant and
the source performs no emptiness check. -/
theorem back_on_empty_curve_has_no_result : pwflatBack [] [] = none := rfl

/-- C6 amended: on a non-empty curve `_back()` returns the last
`(time, rate)` pillar pair; on an empty curve the access is undefined
behaviour (modelled as the absence of a result), which the spec directs
reimplementations — not this code — to turn into an explicit error. -/
theorem back_nonempty_returns_last (t f : List ℚ) (h1 : t ≠ []) (h2 : f ≠ []) :
    pwflatBack t f = some (t.getLast h1, f.getLast h2) := by
  simp [pwflatBack, List.getLast?_eq_getLast t h1, List.getLast?_eq_getLast f h2]

/-- Witness for the amended C6 at `t = [1,2]`, `f = [3,4]`. -/
theorem back_nonempty_returns_last_witness :
    pwflatBack [1, 2] [3, 4] = some (2, 4) := by
  have h := back_nonempty_returns_last [1, 2] [3, 4] (by simp) (by simp)
  simpa using h

/-- C7 counterexample: with `t = [1,2,4]` and `u = 2`, `translate(2, t)`
shifts the array to `[-1, 0, 2]` and returns the sub-view `[2]`; applying
`translate(-2, ·)` to that sub-view restores only the last slot, leaving
the array at `[-1, 0, 4]` — not the original `[1, 2, 4]`. -/
theorem translate_roundtrip_not_restoring :
    roundTrip 2 [1, 2, 4] = [-1, 0, 4] ∧ roundTrip 2 [1, 2, 4] ≠ [1, 2, 4] := by
  constructor
  · norm_num [roundTrip, pwflat.upperBound0]
  · simp [roundTrip, pwflat.upperBound0]

/-- Every element positive means `upper_bound(…, 0)` is the start. -/
theorem upperBound0_of_all_pos :
    ∀ l : List ℚ, (∀ x ∈ l, 0 < x) → pwflat.upperBound0 l = 0 := by
  intro l
  cases l with
  | nil => intro _; rfl
  | cons a r => intro h; simp [pwflat.upperBound0, h a (by simp)]

/-- Shifting every slot by `-u` and then by `+u` is the identity on the
array contents. -/
theorem map_shift_back (u : ℚ) :
    ∀ l : List ℚ, (l.map (fun x => x - u)).map (fun x => x + u) = l := by
  intro l
  induction l with
  | nil => rfl
  | cons a r ih => simp [ih, sub_add_cancel_right]

/-- C7 amended: the round trip `translate(u, t)` then `translate(-u, ·)`
on the returned sub-view restores the original array exactly when no
pillar expires (every shifted time stays positive, so the sub-view is the
whole array); and the scoped wrapper `tmx::translate`, whose destructor
shifts the full span back by `+u`, always restores the original times on
scope exit. -/
theorem translate_roundtrip_amended (u : ℚ) (t : List ℚ) :
    ((∀ x ∈ t, u < x) → roundTrip u t = t) ∧
    scopeExit u (scopeEnter u t).1 = t := by
  constructor
  · intro h
    have hpos : ∀ x ∈ t.map (fun x => x - u), 0 < x := by
      intro x hx
      rcases List.mem_map.mp hx with ⟨y, hy, rfl⟩
      exact sub_pos.mpr (h y hy)
    simpa [roundTrip, upperBound0_of_all_pos _ hpos, List.map_map]
      using map_shift_back u t
  · simpa [scopeExit, scopeEnter, List.map_map] using map_shift_back u t

/-- Witness for the amended C7 at `u = 1`, `t = [2,3]`: no pillar expires
and both the sub-view round trip and the scoped wrapper restore `[2,3]`. -/
theorem translate_roundtrip_amended_witness :
    roundTrip 1 [2, 3] = [2, 3] ∧ scopeExit 1 (scopeEnter 1 [2, 3]).1 = [2, 3] := by
  have h := translate_roundtrip_amended 1 [2, 3]
  exact ⟨h.1 (by norm_num), h.2⟩

/-- C8 counterexample: `constant::_value` returns the scalar `f` for every
query time, including negative ones — `Constant(1).value(-1)` is `1`, not
NaN (consistent with spec §4.3 "value(u) = f for all u", contradicting the
claim and §4.1). -/
theorem constant_value_negative_not_nan :
    Curve.value (Curve.const (some 1)) (-1) = some 1 ∧
    (some 1 : FVal) ≠ (none : FVal) :=
  ⟨rfl, by simp⟩

/-- C8 amended: for `u < 0` the PiecewiseFlat variant returns NaN; the
Constant variant returns its scalar `f` for every `u`; the Sum variant
adds the operands' values with NaN propagation, hence returns NaN at
`u < 0` whenever an operand does.  No variant raises a fault (every
embedded evaluation is a total function). -/
theorem value_negative_amended :
    (∀ (t f : List ℚ) (ef : FVal) (u : ℚ), u < 0 → Curve.value (Curve.pw t f ef) u = none) ∧
    (∀ (fc : FVal) (u : ℚ), Curve.value (Curve.const fc) u = fc) ∧
    (∀ (a b : Curve) (u : ℚ), Curve.value a u = none ∨ Curve.value b u = none →
      Curve.value (Curve.plus a b) u = none) := by
  refine ⟨?_, fun _ _ => rfl, ?_⟩
  · intro t f ef u hu
    simp [Curve.value, pwflat.forward, pwflat.value, hu]
  · intro a b u h
    rcases h with ha | hb
    · cases hb : Curve.value b u <;> simp [Curve.value, ha, hb, optAdd]
    · cases ha : Curve.value a u <;> simp [Curve.value, ha, hb, optAdd]

/-- C9 counterexample: the Sum curve's `_integral` ignores the lower bound
`t`, so its `discount(u, u)` is not 1: for the sum of two `Constant(1)`
curves, `discount(1, 1) = exp(-(1 + 1)) ≠ 1`. -/
theorem sum_discount_at_equal_times_not_one :
    Curve.discount (Curve.plus (Curve.const (some 1)) (Curve.const (some 1))) 1 1 ≠ some 1 := by
  have hint : Curve.integral (Curve.plus (Curve.const (some 1)) (Curve.const (some 1))) 1 1 =
      some 2 := by
    simp [Curve.integral, optAdd]
    norm_num
  intro h
  rw [Curve.discount, hint] at h
  have h2 : Real.exp (-((2 : ℚ) : ℝ)) = 1 := Option.some.inj h
  rw [Real.exp_eq_one_iff] at h2
  norm_num at h2

/-- C9 amended: `discount(u, t)` is `exp(-integral(u, t))` exactly for
every curve; every defined (non-NaN) discount value is nonnegative; and
`discount(u, u) = 1` holds for the Constant variant with a defined scalar
and for the PiecewiseFlat variant whenever its kernel integral at `u` is
defined — but not for Sum, whose integral ignores the lower bound (see the
counterexample). -/
theorem discount_amended :
    (∀ (c : Curve) (u t : ℚ),
      Curve.discount c u t = (Curve.integral c u t).map (fun I => Real.exp (-(I : ℝ)))) ∧
    (∀ (c : Curve) (u t : ℚ) (x : ℝ), Curve.discount c u t = some x → 0 ≤ x) ∧
    (∀ (q u : ℚ), Curve.discount (Curve.const (some q)) u u = some 1) ∧
    (∀ (tl fl : List ℚ) (ef : FVal) (u : ℚ), (pwflat.integral u tl fl ef).isSome = true →
      Curve.discount (Curve.pw tl fl ef) u u = some 1) := by
  refine ⟨fun _ _ _ => rfl, ?_, ?_, ?_⟩
  · intro c u t x h
    rw [Curve.discount] at h
    cases hI : Curve.integral c u t with
    | none => rw [hI] at h; simp at h
    | some I =>
      rw [hI] at h
      have h2 : Real.exp (-(I : ℝ)) = x := Option.some.inj h
      exact h2 ▸ (Real.exp_pos _).le
  · intro q u
    simp [Curve.discount, Curve.integral, Real.exp_zero]
  · intro tl fl ef u h
    obtain ⟨v, hv⟩ := Option.isSome_iff_exists.mp h
    simp [Curve.discount, Curve.integral, hv, optSub, Real.exp_zero]

/-- Witness for the amended C9: a one-pillar PiecewiseFlat curve has a
defined integral at `u = 1` and `discount(1, 1) = 1`, a value that is
nonnegative. -/
theorem discount_amended_witness :
    Curve.discount (Curve.pw [1] [2] none) 1 1 = some 1 ∧ (0 : ℝ) ≤ 1 := by
  have hsome : (pwflat.integral 1 [1] [2] none).isSome = true := by
    norm_num [pwflat.integral, pwflat.integralLoop, List.zip]
  have h4 := discount_amended.2.2.2 [1] [2] none 1 hsome
  exact ⟨h4, discount_amended.2.1 (Curve.pw [1] [2] none) 1 1 1 h4⟩

/-- Witness for the amended C8 at `u = -1`: a PiecewiseFlat curve returns
NaN, and a Sum containing it returns NaN whichever side it sits on. -/
theorem value_negative_amended_witness :
    Curve.value (Curve.pw [1] [2] (some 3)) (-1) = none ∧
    Curve.value (Curve.plus (Curve.pw [1] [2] (some 3)) (Curve.const (some 1))) (-1) = none ∧
    Curve.value (Curve.plus (Curve.const (some 1)) (Curve.pw [1] [2] (some 3))) (-1) = none := by
  have h1 := value_negative_amended.1 [1] [2] (some 3) (-1) (by norm_num)
  exact ⟨h1, value_negative_amended.2.2 _ (Curve.const (some 1)) (-1) (Or.inl h1),
    value_negative_amended.2.2 (Curve.const (some 1)) _ (-1) (Or.inr h1)⟩
